import Mathlib

/-!
Verification development for the payout admission bot (src/main.py).

The bot polls a backend for payout records, filters out new high-value ones
(check_payouts), and for each qualifying payout either defers to a human
operator (send_manual_notification) or applies the automatic admission and
eviction policy (handle_auto_mode).  Operator clicks on the rendered buttons
are handled by handle_accept_callback and handle_cancel_callback.

Amounts are parsed with Python float; we model a successfully parsed finite
amount as some (q : Rat) and a parse failure (or a non-finite value) as none.
Creation timestamps parsed by dateutil are modelled as a wall-clock instant
in seconds together with an optional timezone offset.  Times are integers in
seconds.  Backend HTTP responses are modelled by oracle values supplied as
arguments: the code only inspects the HTTP status of the cancel and accept
calls when sequencing mutations, so a Bool per call suffices.
-/

namespace PayoutBot

/-- Parsed creation timestamp: the wall-clock value in seconds together with
the timezone offset in seconds when the string carried one (dateutil leaves
tzinfo as None when the string has no timezone). -/
structure ParsedTime where
  naive : Int
  tzOffset : Option Int
deriving DecidableEq

/-- Normalisation done in check_payouts: a naive timestamp is reinterpreted
as UTC (replace tzinfo=timezone.utc keeps the wall clock), an aware one is
converted to UTC (astimezone keeps the instant, so UTC = wall clock minus
offset). -/
def toUTC (t : ParsedTime) : Int :=
  t.naive - t.tzOffset.getD 0

/-- A payout record as read from the backend JSON.  uuid is none when the
key is absent; amount is some q when float(...) succeeds and is finite
(a missing amount key defaults to 0 in the code, hence some 0), none when
parsing raises or the value is non-finite; creation_time is none when the
field is absent or dateutil fails to parse it. -/
structure Payout where
  uuid : Option String
  amount : Option Rat
  creation_time : Option ParsedTime
  customer_name : String
  customer_surname : String
deriving DecidableEq

/-- RECENT_MINUTES constant from src/main.py. -/
def RECENT_MINUTES : Int := 5

/-- The list of comparable pending amounts built at the top of
check_payouts: parse each pending amount, keep the finite ones, drop the
rest silently. -/
def comparableAmounts (pending : List Payout) : List Rat :=
  pending.filterMap Payout.amount

/-- The per-payout condition of the filter loop in check_payouts: the uuid
is present, non-empty and not yet processed; the amount parses and is
strictly greater than at least one comparable pending amount; the creation
time parses and, after normalisation to UTC, is at least now minus
RECENT_MINUTES minutes.  Parse failures are skipped via the except clause. -/
def qualifiesB (processed : List String) (pendingAmounts : List Rat)
    (now : Int) (p : Payout) : Bool :=
  match p.uuid with
  | none => false
  | some u =>
    if u = "" then false
    else if u ∈ processed then false
    else
      match p.amount with
      | none => false
      | some a =>
        if pendingAmounts.any (fun pa => pa < a) then
          match p.creation_time with
          | none => false
          | some t => decide (now - RECENT_MINUTES * 60 ≤ toUTC t)
        else false

/-- The pure selection part of check_payouts: the early returns when either
list is empty or no pending amount is comparable, then the filter loop, in
source order. -/
def selectNewHighValue (allPayouts pending : List Payout)
    (processed : List String) (now : Int) : List Payout :=
  if pending.isEmpty || allPayouts.isEmpty then []
  else
    let pendingAmounts := comparableAmounts pending
    if pendingAmounts.isEmpty then []
    else allPayouts.filter (qualifiesB processed pendingAmounts now)

/-- Auto mode configuration as stored by save_auto_mode and read by
load_auto_mode: an enabled flag and the optional min and max amounts. -/
structure AutoMode where
  enabled : Bool
  min_amount : Option Rat
  max_amount : Option Rat
deriving DecidableEq

/-- HTTP outcomes of the backend calls a single handle_auto_mode run can
make.  The code only branches on whether the response status is 200. -/
structure AutoOracle where
  cancelStatus200 : Bool
  acceptStatus200 : Bool
deriving DecidableEq

/-- Observable side effects of one admission decision: the broadcast manual
notification with buttons (send_manual_notification), and the POST
accept-payouts and POST cancel-payouts mutations. -/
inductive Effect where
  | manualNotify (uuid : String)
  | acceptMutation (uuid : String)
  | cancelMutation (uuid : Option String)
deriving DecidableEq

/-- The key function of the eviction choice in handle_auto_mode:
float(p.get("amount", 0)); a missing amount key contributes 0, and a parse
failure raises (handled at choose_victim). -/
def pendingKey (p : Payout) : Rat :=
  p.amount.getD 0

/-- Left fold implementing Python min with a key function: the running
minimum is replaced only when the next key is strictly smaller, so the
first occurrence of the minimal key wins. -/
def minByKey : Payout → List Payout → Payout
  | best, [] => best
  | best, p :: rest =>
      minByKey (if pendingKey p < pendingKey best then p else best) rest

/-- min(pending_payouts, key=lambda p: float(p.get("amount", 0))) from
handle_auto_mode.  min of an empty list raises, and float raises on an
unparsable amount; both exceptions are swallowed by the surrounding
except clause, modelled as none. -/
def choose_victim (pending : List Payout) : Option Payout :=
  match pending with
  | [] => none
  | p :: rest =>
      if (p :: rest).all (fun q => q.amount.isSome) then
        some (minByKey p rest)
      else none

/-- The capacity branch of handle_auto_mode once the range check has
passed: accept outright when fewer than 5 payouts are pending, otherwise
cancel the smallest pending payout and, only when the cancel response has
status 200, accept the new one. -/
def autoAdmit (uuid : String) (pending : List Payout) (o : AutoOracle) :
    List Effect :=
  if pending.length < 5 then [.acceptMutation uuid]
  else
    match choose_victim pending with
    | none => []
    | some victim =>
        .cancelMutation victim.uuid ::
          (if o.cancelStatus200 then [.acceptMutation uuid] else [])

/-- Side effects of handle_auto_mode for one payout, given the pending
snapshot it fetches and the backend response oracle.  The amount value
falls back to 0 when parsing fails, exactly as in the code; when both
range bounds are configured and the value lies outside them, the payout is
handed to send_manual_notification instead. -/
def handle_auto_mode_effects (p : Payout) (pending : List Payout)
    (cfg : AutoMode) (o : AutoOracle) : List Effect :=
  let uuid := p.uuid.getD "N/A"
  let amount_value : Rat := p.amount.getD 0
  match cfg.min_amount, cfg.max_amount with
  | some mn, some mx =>
      if ¬ (mn ≤ amount_value ∧ amount_value ≤ mx) then [.manualNotify uuid]
      else autoAdmit uuid pending o
  | some _, none => autoAdmit uuid pending o
  | none, some _ => autoAdmit uuid pending o
  | none, none => autoAdmit uuid pending o

/-- notify_users: dispatch on the persisted auto-mode flag; disabled means
a manual notification with buttons and nothing else. -/
def notify_users_effects (p : Payout) (pending : List Payout)
    (cfg : AutoMode) (o : AutoOracle) : List Effect :=
  if cfg.enabled then handle_auto_mode_effects p pending cfg o
  else [.manualNotify (p.uuid.getD "N/A")]

/-- Admission actions named by the specification. -/
inductive Action where
  | DeferToHuman
  | AutoAccept
  | AutoEvictSmallestThenAccept
deriving DecidableEq

/-- Modelled from the spec: the four admission rules of section 4.2,
evaluated in order, as a function of the parsed amount, the pending count
and the configuration.  This is the spec-side definition against which the
code-side effect function is compared. -/
def decide_spec (amount : Rat) (pendingCount : Nat) (cfg : AutoMode) :
    Action :=
  if cfg.enabled = false then .DeferToHuman
  else
    match cfg.min_amount, cfg.max_amount with
    | some mn, some mx =>
        if amount < mn ∨ mx < amount then .DeferToHuman
        else if pendingCount < 5 then .AutoAccept
        else .AutoEvictSmallestThenAccept
    | _, _ =>
        if pendingCount < 5 then .AutoAccept
        else .AutoEvictSmallestThenAccept

/-- The guard of the range check in handle_auto_mode as a Bool: true when
the configuration lets the automatic path keep the payout (no configured
range, or amount within the closed interval). -/
def rangeAllows (cfg : AutoMode) (a : Rat) : Bool :=
  match cfg.min_amount, cfg.max_amount with
  | some mn, some mx => decide (mn ≤ a ∧ a ≤ mx)
  | _, _ => true

/-- One backend snapshot observed by a poll cycle: the payouts feed, the
pending feed, and the current UTC time. -/
structure Snapshot where
  all : List Payout
  pending : List Payout
  now : Int

/-- Environment of one notify_users invocation inside a poll cycle: the
pending list handle_auto_mode fetches for itself, and the HTTP oracle. -/
structure HandleEnv where
  pendingAtHandling : List Payout
  oracle : AutoOracle

/-- Ledger update performed by the notification loop of check_payouts:
processed_uuids.add(payout["uuid"]) for each selected payout, then saved. -/
def pollLedger (processed : List String) (sel : List Payout) :
    List String :=
  processed ++ sel.filterMap Payout.uuid

/-- One full check_payouts cycle: select, handle each selected payout in
sequence through notify_users (producing effects), and add every selected
identifier to the ledger regardless of what the handling did. -/
def check_payouts_cycle (processed : List String) (s : Snapshot)
    (cfg : AutoMode) (envs : Nat → HandleEnv) : List Effect × List String :=
  let sel := selectNewHighValue s.all s.pending processed s.now
  ((sel.enum.map fun ip =>
      notify_users_effects ip.2 (envs ip.1).pendingAtHandling cfg
        (envs ip.1).oracle).flatten,
   pollLedger processed sel)

/-- The selections produced by successive poll cycles, threading the
processed ledger from each cycle into the next. -/
def pollRun (processed : List String) : List Snapshot → List (List Payout)
  | [] => []
  | s :: rest =>
      let sel := selectNewHighValue s.all s.pending processed s.now
      sel :: pollRun (pollLedger processed sel) rest

/-- How many of the payouts selected over a run carry the identifier u. -/
def runCountU (u : String) (run : List (List Payout)) : Nat :=
  (run.map fun sel =>
    sel.countP (fun q => decide (q.uuid = some u))).sum

/-- Python list indexing, including the negative-index convention:
l[i] is l[len(l) + i] for negative i, and an IndexError (none) outside
[-len, len). -/
def pyGet (l : List Payout) (i : Int) : Option Payout :=
  if 0 ≤ i then l[i.toNat]?
  else if 0 ≤ i + l.length then l[(i + l.length).toNat]? else none

/-- Terminal states of one handle_cancel_callback invocation, as surfaced
to the operator. -/
inductive CancelOutcome where
  | staleIndexError
  | handlerException
  | cancelFailed
  | mustEvictAgain (newUuid : String) (shown : List Payout)
  | acceptedNew (newUuid : String)
  | terminalNoAccept
deriving DecidableEq

/-- handle_cancel_callback after parsing the button payload: idx is the
parsed integer index, newUuid the base64-decoded new-payout identifier
(none when missing or undecodable), fresh the pending list fetched at the
click, refreshed the pending list fetched again after a successful cancel.
The bounds check rejects only idx greater than or equal to the fresh
length; otherwise Python indexing resolves the victim (an IndexError from
a too-negative index is caught by the outer except).  On a 200 cancel
response the refetched count decides between re-rendering the eviction
list with the same embedded identifier and accepting the new payout. -/
def handle_cancel_callback (idx : Int) (newUuid : Option String)
    (fresh refreshed : List Payout) (cancel200 : Bool) :
    CancelOutcome × List Effect :=
  if (fresh.length : Int) ≤ idx then (.staleIndexError, [])
  else
    match pyGet fresh idx with
    | none => (.handlerException, [])
    | some victim =>
      let eff := Effect.cancelMutation victim.uuid
      if cancel200 then
        if 5 ≤ refreshed.length then
          match newUuid with
          | some u => (.mustEvictAgain u refreshed, [eff])
          | none => (.handlerException, [eff])
        else
          match newUuid with
          | some u =>
              if u ≠ "" ∧ u ≠ "N/A" then
                (.acceptedNew u, [eff, .acceptMutation u])
              else (.terminalNoAccept, [eff])
          | none => (.terminalNoAccept, [eff])
      else (.cancelFailed, [eff])

end PayoutBot

namespace PayoutBot

lemma qualifiesB_false_of_no_amounts (processed : List String) (now : Int)
    (p : Payout) : qualifiesB processed [] now p = false := by
  unfold qualifiesB
  cases p.uuid with
  | none => rfl
  | some u =>
    by_cases h1 : u = "" <;> simp [h1]
    by_cases h2 : u ∈ processed <;> simp [h2]
    cases p.amount <;> simp

/-- selectNewHighValue is extensionally the filter by qualifiesB: each early
return produces the same empty result the filter would. -/
lemma selectNewHighValue_eq_filter (allPayouts pending : List Payout)
    (processed : List String) (now : Int) :
    selectNewHighValue allPayouts pending processed now =
      allPayouts.filter
        (qualifiesB processed (comparableAmounts pending) now) := by
  unfold selectNewHighValue
  by_cases hp : pending.isEmpty
  · have hc : comparableAmounts pending = [] := by
      cases pending with
      | nil => rfl
      | cons x xs => simp [List.isEmpty] at hp
    simp only [hp, Bool.true_or, if_pos]
    rw [hc]
    symm
    rw [List.filter_eq_nil_iff]
    intro a _
    rw [qualifiesB_false_of_no_amounts]
    simp
  · by_cases ha : allPayouts.isEmpty
    · have : allPayouts = [] := by
        cases allPayouts with
        | nil => rfl
        | cons x xs => simp [List.isEmpty] at ha
      simp [this]
    · simp only [hp, ha, Bool.or_self, if_neg, Bool.false_eq_true,
        not_false_iff]
      by_cases hca : (comparableAmounts pending).isEmpty
      · have hc : comparableAmounts pending = [] := by
          rwa [List.isEmpty_iff] at hca
        simp only [hca, if_pos]
        rw [hc]
        symm
        rw [List.filter_eq_nil_iff]
        intro a _
        rw [qualifiesB_false_of_no_amounts]
        simp
      · simp [hca]

/-- Membership in the selection is membership in the snapshot plus the
filter condition. -/
lemma mem_selectNewHighValue {allPayouts pending : List Payout}
    {processed : List String} {now : Int} {p : Payout} :
    p ∈ selectNewHighValue allPayouts pending processed now ↔
      p ∈ allPayouts ∧
        qualifiesB processed (comparableAmounts pending) now p = true := by
  rw [selectNewHighValue_eq_filter, List.mem_filter]

lemma pendingKey_minByKey_le_init (best : Payout) (l : List Payout) :
    pendingKey (minByKey best l) ≤ pendingKey best := by
  induction l generalizing best with
  | nil => exact le_refl _
  | cons p rest ih =>
    show pendingKey
        (minByKey (if pendingKey p < pendingKey best then p else best) rest) ≤
      pendingKey best
    by_cases h : pendingKey p < pendingKey best
    · simp only [h, if_pos]
      exact le_trans (ih p) (le_of_lt h)
    · simp only [h, if_neg, not_false_iff]
      exact ih best

lemma pendingKey_minByKey_le_mem (best : Payout) (l : List Payout) :
    ∀ q ∈ l, pendingKey (minByKey best l) ≤ pendingKey q := by
  induction l generalizing best with
  | nil => intro q hq; cases hq
  | cons p rest ih =>
    intro q hq
    rcases List.mem_cons.mp hq with h | h
    · subst h
      show pendingKey
          (minByKey (if pendingKey q < pendingKey best then q else best)
            rest) ≤ pendingKey q
      by_cases hlt : pendingKey q < pendingKey best
      · simp only [hlt, if_pos]
        exact pendingKey_minByKey_le_init q rest
      · simp only [hlt, if_neg, not_false_iff]
        exact le_trans (pendingKey_minByKey_le_init best rest)
          (le_of_not_lt hlt)
    · exact ih _ q h

lemma minByKey_mem (best : Payout) (l : List Payout) :
    minByKey best l ∈ best :: l := by
  induction l generalizing best with
  | nil => exact List.mem_singleton.mpr rfl
  | cons p rest ih =>
    show minByKey (if pendingKey p < pendingKey best then p else best) rest ∈
      best :: p :: rest
    by_cases h : pendingKey p < pendingKey best
    · simp only [h, if_pos]
      rcases List.mem_cons.mp (ih p) with h2 | h2
      · rw [h2]
        exact List.mem_cons_of_mem _ (List.mem_cons_self _ _)
      · exact List.mem_cons_of_mem _ (List.mem_cons_of_mem _ h2)
    · simp only [h, if_neg, not_false_iff]
      rcases List.mem_cons.mp (ih best) with h2 | h2
      · rw [h2]; exact List.mem_cons_self _ _
      · exact List.mem_cons_of_mem _ (List.mem_cons_of_mem _ h2)

lemma minByKey_cons (best p : Payout) (rest : List Payout) :
    minByKey best (p :: rest) =
      minByKey (if pendingKey p < pendingKey best then p else best) rest :=
  rfl

/-- minByKey returns the first element of the scanned list achieving the
minimal key: find? with the predicate "key equals the minimum" lands on it. -/
lemma minByKey_find? (best : Payout) (l : List Payout) :
    (best :: l).find?
        (fun q => decide (pendingKey q = pendingKey (minByKey best l))) =
      some (minByKey best l) := by
  induction l generalizing best with
  | nil =>
    have hb : minByKey best [] = best := rfl
    rw [hb, List.find?_cons]
    simp
  | cons p rest ih =>
    rw [minByKey_cons]
    by_cases h : pendingKey p < pendingKey best
    · simp only [h, if_pos]
      have hle : pendingKey (minByKey p rest) ≤ pendingKey p :=
        pendingKey_minByKey_le_init p rest
      have hne : pendingKey best ≠ pendingKey (minByKey p rest) := by
        intro he
        exact absurd h (not_lt.mpr (he.trans_le hle))
      rw [List.find?_cons]
      simp only [hne, decide_eq_true_eq, decide_False]
      exact ih p
    · simp only [h, if_neg, not_false_iff]
      have hbp : pendingKey best ≤ pendingKey p := le_of_not_lt h
      have hle : pendingKey (minByKey best rest) ≤ pendingKey best :=
        pendingKey_minByKey_le_init best rest
      by_cases hb : pendingKey best = pendingKey (minByKey best rest)
      · have hbest : (best :: rest).find?
            (fun q => decide (pendingKey q =
              pendingKey (minByKey best rest))) = some best := by
          rw [List.find?_cons]
          simp [hb]
        have heq : best = minByKey best rest := by
          have h2 := ih best
          rw [hbest] at h2
          exact Option.some.inj h2
        rw [List.find?_cons]
        rw [← heq]
        simp [hb]
      · have hpne : pendingKey p ≠ pendingKey (minByKey best rest) := by
          intro he
          exact hb (le_antisymm (hbp.trans he.le) hle)
        have hrest : rest.find?
            (fun q => decide (pendingKey q =
              pendingKey (minByKey best rest))) =
            some (minByKey best rest) := by
          have h2 := ih best
          rw [List.find?_cons] at h2
          simpa [hb] using h2
        rw [List.find?_cons, List.find?_cons]
        simp [hb, hpne, hrest]

lemma choose_victim_eq_some {pending : List Payout} {v : Payout}
    (h : choose_victim pending = some v) :
    ∃ p rest, pending = p :: rest ∧ v = minByKey p rest ∧
      ∀ q ∈ pending, q.amount.isSome = true := by
  cases pending with
  | nil => exact absurd h (by simp [choose_victim])
  | cons p rest =>
    by_cases hall : (p :: rest).all (fun q => q.amount.isSome)
    · refine ⟨p, rest, rfl, ?_, ?_⟩
      · have h2 : some (minByKey p rest) = some v := by
          rw [← h]
          simp [choose_victim, hall]
        exact (Option.some.inj h2).symm
      · intro q hq
        exact List.all_eq_true.mp hall q hq
    · exact absurd h (by simp [choose_victim, hall])

lemma choose_victim_min {pending : List Payout} {v : Payout}
    (h : choose_victim pending = some v) :
    ∀ q ∈ pending, pendingKey v ≤ pendingKey q := by
  obtain ⟨p, rest, hpr, hv, -⟩ := choose_victim_eq_some h
  subst hpr
  subst hv
  intro q hq
  rcases List.mem_cons.mp hq with h2 | h2
  · rw [h2]
    exact pendingKey_minByKey_le_init p rest
  · exact pendingKey_minByKey_le_mem p rest q h2

lemma choose_victim_first {pending : List Payout} {v : Payout}
    (h : choose_victim pending = some v) :
    pending.find? (fun q => decide (pendingKey q = pendingKey v)) =
      some v := by
  obtain ⟨p, rest, hpr, hv, -⟩ := choose_victim_eq_some h
  subst hpr
  subst hv
  exact minByKey_find? p rest

lemma ne_nil_of_five_le {pending : List Payout}
    (h5 : ¬ pending.length < 5) : pending ≠ [] := by
  intro h
  subst h
  exact h5 (by simp)

lemma choose_victim_isSome {pending : List Payout} (hne : pending ≠ [])
    (hall : ∀ q ∈ pending, q.amount.isSome = true) :
    (choose_victim pending).isSome = true := by
  cases pending with
  | nil => exact absurd rfl hne
  | cons p rest =>
    have h : (p :: rest).all (fun q => q.amount.isSome) = true :=
      List.all_eq_true.mpr hall
    simp [choose_victim, h]

/-- The capacity branch of the automatic path, characterised: below
capacity the new payout is accepted outright; at or over capacity the
first minimal pending item is cancelled and the accept follows only a
status-200 cancel. -/
lemma autoAdmit_branches (uuid : String) (pending : List Payout)
    (o : AutoOracle) (hall : ∀ q ∈ pending, q.amount.isSome = true) :
    (pending.length < 5 →
      autoAdmit uuid pending o = [.acceptMutation uuid]) ∧
    (¬ pending.length < 5 →
      (choose_victim pending).isSome = true ∧
      ∀ v, choose_victim pending = some v →
        (∀ q ∈ pending, pendingKey v ≤ pendingKey q) ∧
        autoAdmit uuid pending o =
          .cancelMutation v.uuid ::
            (if o.cancelStatus200 then [.acceptMutation uuid] else [])) := by
  constructor
  · intro h5
    simp [autoAdmit, h5]
  · intro h5
    refine ⟨choose_victim_isSome (ne_nil_of_five_le h5) hall, ?_⟩
    intro v hv
    refine ⟨choose_victim_min hv, ?_⟩
    simp [autoAdmit, h5, hv]

/-- In the enabled-and-range-allowed configuration the notify_users path
lands in the capacity branch. -/
lemma notify_users_effects_autoAdmit (p : Payout) (a : Rat)
    (pending : List Payout) (cfg : AutoMode) (o : AutoOracle)
    (hen : cfg.enabled = true) (hpa : p.amount = some a)
    (hr : rangeAllows cfg a = true) :
    notify_users_effects p pending cfg o =
      autoAdmit (p.uuid.getD "N/A") pending o := by
  obtain ⟨en, mno, mxo⟩ := cfg
  simp only at hen
  subst hen
  have hamt : p.amount.getD 0 = a := by rw [hpa]; rfl
  rcases mno with _ | mn <;> rcases mxo with _ | mx <;>
    simp_all [notify_users_effects, handle_auto_mode_effects, rangeAllows]

/-- Unpacking a successful filter condition into its five constituents. -/
lemma qualifiesB_true_elim {processed : List String}
    {pendingAmounts : List Rat} {now : Int} {p : Payout}
    (h : qualifiesB processed pendingAmounts now p = true) :
    ∃ u, p.uuid = some u ∧ u ≠ "" ∧ u ∉ processed ∧
      ∃ a, p.amount = some a ∧ (∃ b ∈ pendingAmounts, b < a) ∧
        ∃ t, p.creation_time = some t ∧
          now - RECENT_MINUTES * 60 ≤ toUTC t := by
  unfold qualifiesB at h
  split at h
  · cases h
  · rename_i u hu
    by_cases h1 : u = ""
    · rw [if_pos h1] at h; cases h
    · rw [if_neg h1] at h
      by_cases h2 : u ∈ processed
      · rw [if_pos h2] at h; cases h
      · rw [if_neg h2] at h
        split at h
        · cases h
        · rename_i a ha
          by_cases h3 : pendingAmounts.any (fun pa => pa < a) = true
          · rw [if_pos h3] at h
            split at h
            · cases h
            · rename_i t ht
              refine ⟨u, hu, h1, h2, a, ha, ?_, t, ht, ?_⟩
              · obtain ⟨b, hb1, hb2⟩ := List.any_eq_true.mp h3
                exact ⟨b, hb1, of_decide_eq_true hb2⟩
              · exact of_decide_eq_true h
          · rw [if_neg h3] at h; cases h

/-- Building a successful filter condition from its five constituents. -/
lemma qualifiesB_true_intro {processed : List String}
    {pendingAmounts : List Rat} {now : Int} {p : Payout} {u : String}
    {a : Rat} {t : ParsedTime}
    (hu : p.uuid = some u) (hne : u ≠ "") (hproc : u ∉ processed)
    (ha : p.amount = some a) (hgt : ∃ b ∈ pendingAmounts, b < a)
    (ht : p.creation_time = some t)
    (hrec : now - RECENT_MINUTES * 60 ≤ toUTC t) :
    qualifiesB processed pendingAmounts now p = true := by
  have h3 : pendingAmounts.any (fun pa => pa < a) = true := by
    obtain ⟨b, hb1, hb2⟩ := hgt
    exact List.any_eq_true.mpr ⟨b, hb1, decide_eq_true hb2⟩
  simp only [qualifiesB, hu, ha, ht]
  rw [if_neg hne, if_neg hproc, if_pos h3]
  exact decide_eq_true hrec

/-- A payout whose identifier is already in the ledger never passes the
filter. -/
lemma qualifiesB_false_of_processed {processed : List String}
    {pendingAmounts : List Rat} {now : Int} {p : Payout} {u : String}
    (hu : p.uuid = some u) (hproc : u ∈ processed) :
    qualifiesB processed pendingAmounts now p = false := by
  simp only [qualifiesB, hu]
  by_cases h1 : u = ""
  · rw [if_pos h1]
  · rw [if_neg h1, if_pos hproc]

lemma countP_uuid_eq_count_filterMap (all : List Payout) (u : String) :
    all.countP (fun q => decide (q.uuid = some u)) =
      (all.filterMap Payout.uuid).count u := by
  induction all with
  | nil => rfl
  | cons q rest ih =>
    rw [List.countP_cons, List.filterMap_cons]
    cases hq : q.uuid with
    | none =>
      simp [hq, ih]
    | some u2 =>
      by_cases he : u2 = u
      · subst he
        simp [hq, ih, List.count_cons]
      · simp [hq, ih, List.count_cons, he]

lemma countP_uuid_le_one {all : List Payout} {u : String}
    (h : (all.filterMap Payout.uuid).Nodup) :
    all.countP (fun q => decide (q.uuid = some u)) ≤ 1 := by
  rw [countP_uuid_eq_count_filterMap]
  exact List.nodup_iff_count_le_one.mp h u

lemma countP_select_le (allPayouts pending : List Payout)
    (processed : List String) (now : Int) (u : String) :
    (selectNewHighValue allPayouts pending processed now).countP
        (fun q => decide (q.uuid = some u)) ≤
      allPayouts.countP (fun q => decide (q.uuid = some u)) := by
  rw [selectNewHighValue_eq_filter]
  exact (List.filter_sublist _).countP_le _

lemma countP_select_zero_of_processed {processed : List String} {u : String}
    (hproc : u ∈ processed) (allPayouts pending : List Payout) (now : Int) :
    (selectNewHighValue allPayouts pending processed now).countP
      (fun q => decide (q.uuid = some u)) = 0 := by
  rw [List.countP_eq_zero]
  intro q hq
  simp only [decide_eq_true_eq]
  intro hqu
  have h2 := (mem_selectNewHighValue.mp hq).2
  rw [qualifiesB_false_of_processed hqu hproc] at h2
  cases h2

lemma mem_pollLedger_left {processed : List String} {u : String}
    (hproc : u ∈ processed) (sel : List Payout) :
    u ∈ pollLedger processed sel :=
  List.mem_append_left _ hproc

lemma mem_pollLedger_of_selected {sel : List Payout} {q : Payout}
    {u : String} (hq : q ∈ sel) (hqu : q.uuid = some u)
    (processed : List String) : u ∈ pollLedger processed sel :=
  List.mem_append_right _ (List.mem_filterMap.mpr ⟨q, hq, hqu⟩)

lemma pollRun_cons (processed : List String) (s : Snapshot)
    (rest : List Snapshot) :
    pollRun processed (s :: rest) =
      selectNewHighValue s.all s.pending processed s.now ::
        pollRun
          (pollLedger processed
            (selectNewHighValue s.all s.pending processed s.now)) rest :=
  rfl

lemma runCountU_cons (u : String) (x : List Payout)
    (run : List (List Payout)) :
    runCountU u (x :: run) =
      x.countP (fun q => decide (q.uuid = some u)) + runCountU u run := by
  simp [runCountU]

lemma runCountU_zero_of_processed {u : String} :
    ∀ (snaps : List Snapshot) (processed : List String), u ∈ processed →
      runCountU u (pollRun processed snaps) = 0 := by
  intro snaps
  induction snaps with
  | nil => intro processed _; rfl
  | cons s rest ih =>
    intro processed hproc
    rw [pollRun_cons, runCountU_cons]
    rw [countP_select_zero_of_processed hproc,
      ih _ (mem_pollLedger_left hproc _)]

lemma runCountU_le_one {u : String} :
    ∀ (snaps : List Snapshot) (processed : List String),
      (∀ s ∈ snaps, (s.all.filterMap Payout.uuid).Nodup) →
      runCountU u (pollRun processed snaps) ≤ 1 := by
  intro snaps
  induction snaps with
  | nil =>
    intro processed _
    exact Nat.zero_le 1
  | cons s rest ih =>
    intro processed hnd
    rw [pollRun_cons, runCountU_cons]
    by_cases hc : (selectNewHighValue s.all s.pending processed s.now).countP
        (fun q => decide (q.uuid = some u)) = 0
    · rw [hc]
      simpa using ih _ (fun s2 h2 => hnd s2 (List.mem_cons_of_mem _ h2))
    · obtain ⟨q, hqmem, hqd⟩ :=
        List.countP_pos_iff.mp (Nat.pos_of_ne_zero hc)
      have hqu : q.uuid = some u := of_decide_eq_true hqd
      have hrest : runCountU u
          (pollRun (pollLedger processed
            (selectNewHighValue s.all s.pending processed s.now)) rest) = 0 :=
        runCountU_zero_of_processed rest _
          (mem_pollLedger_of_selected hqmem hqu processed)
      have hone : (selectNewHighValue s.all s.pending processed s.now).countP
          (fun q => decide (q.uuid = some u)) ≤ 1 :=
        le_trans (countP_select_le _ _ _ _ _)
          (countP_uuid_le_one (hnd s (List.mem_cons_self _ _)))
      omega

lemma pyGet_nonneg {l : List Payout} {i : Int} (h0 : 0 ≤ i) :
    pyGet l i = l[i.toNat]? := by
  simp [pyGet, h0]

lemma pyGet_neg {l : List Payout} {i : Int} (hneg : i < 0)
    (hge : 0 ≤ i + l.length) : pyGet l i = l[(i + l.length).toNat]? := by
  have h1 : ¬ 0 ≤ i := not_le.mpr hneg
  simp [pyGet, h1, hge]

/-- Whenever the bounds guard passes and Python indexing resolves a
victim, the first effect of handle_cancel_callback is the cancel mutation
for that victim, and the outcome is not the stale-index error. -/
lemma handle_cancel_effects_of_some (idx : Int) (newUuid : Option String)
    (fresh refreshed : List Payout) (c200 : Bool)
    (hlt : idx < (fresh.length : Int)) {v : Payout}
    (hv : pyGet fresh idx = some v) :
    (handle_cancel_callback idx newUuid fresh refreshed c200).2.head? =
      some (.cancelMutation v.uuid) ∧
    (handle_cancel_callback idx newUuid fresh refreshed c200).1 ≠
      .staleIndexError := by
  unfold handle_cancel_callback
  rw [if_neg (not_le.mpr hlt), hv]
  cases c200 with
  | false => simp
  | true =>
    by_cases h5 : 5 ≤ refreshed.length
    · cases newUuid <;> simp [h5]
    · cases newUuid with
      | none => simp [h5]
      | some u =>
        by_cases hcond : u ≠ "" ∧ u ≠ "N/A"
        · simp [h5, hcond]
        · simp [h5, hcond]

end PayoutBot

namespace PayoutBot

/-- Pending items with the amounts [50, 10, 10, 30] of the worked example. -/
def examplePending : List Payout :=
  [⟨some "P1", some 50, none, "", ""⟩,
   ⟨some "P2", some 10, none, "", ""⟩,
   ⟨some "P3", some 10, none, "", ""⟩,
   ⟨some "P4", some 30, none, "", ""⟩]

/-- C3: when the automatic path must evict, the victim handed to the
cancel mutation is the pending item with the minimum parsed amount, and
among items sharing the minimal amount the first one in list order is
chosen: choose_victim yields an item whose key is a lower bound of all
pending keys, and find? for that minimal key already stops at it. -/
theorem choose_victim_first_minimum (pending : List Payout)
    (hne : pending ≠ [])
    (hall : ∀ q ∈ pending, q.amount.isSome = true) :
    (choose_victim pending).isSome = true ∧
    ∀ v, choose_victim pending = some v →
      (∀ q ∈ pending, pendingKey v ≤ pendingKey q) ∧
      pending.find? (fun q => decide (pendingKey q = pendingKey v)) =
        some v := by
  refine ⟨choose_victim_isSome hne hall, ?_⟩
  intro v hv
  exact ⟨choose_victim_min hv, choose_victim_first hv⟩

/-- Witness for C3 on the pending amounts [50, 10, 10, 30]: the second
item (first occurrence of the minimum 10) is chosen. -/
theorem choose_victim_first_minimum_witness :
    choose_victim examplePending =
      some ⟨some "P2", some 10, none, "", ""⟩ ∧
    examplePending.find?
        (fun q => decide (pendingKey q =
          pendingKey (⟨some "P2", some 10, none, "", ""⟩ : Payout))) =
      some ⟨some "P2", some 10, none, "", ""⟩ := by
  have h := choose_victim_first_minimum examplePending (by decide)
    (by decide)
  have hv : choose_victim examplePending =
      some ⟨some "P2", some 10, none, "", ""⟩ := by decide
  exact ⟨hv, (h.2 _ hv).2⟩

/-- C1: the admission engine realises the spec rules evaluated in order.
When the rules say DeferToHuman (auto mode disabled, or a configured range
with the amount outside the closed interval), the only effect is the
manual notification with buttons and no backend mutation; when they say
AutoAccept (fresh pending count below 5), exactly one accept mutation is
issued; when they say AutoEvictSmallestThenAccept (pending count at least
5), a cancel mutation for the minimal-amount pending item is issued,
followed by the accept of the new payout when the cancel reports success. -/
theorem admission_engine_follows_rules (p : Payout) (a : Rat)
    (pending : List Payout) (cfg : AutoMode) (o : AutoOracle)
    (hpa : p.amount = some a)
    (hall : ∀ q ∈ pending, q.amount.isSome = true) :
    (decide_spec a pending.length cfg = .DeferToHuman →
      notify_users_effects p pending cfg o =
        [.manualNotify (p.uuid.getD "N/A")]) ∧
    (decide_spec a pending.length cfg = .AutoAccept →
      notify_users_effects p pending cfg o =
        [.acceptMutation (p.uuid.getD "N/A")]) ∧
    (decide_spec a pending.length cfg = .AutoEvictSmallestThenAccept →
      (choose_victim pending).isSome = true ∧
      ∀ v, choose_victim pending = some v →
        (∀ q ∈ pending, pendingKey v ≤ pendingKey q) ∧
        notify_users_effects p pending cfg o =
          .cancelMutation v.uuid ::
            (if o.cancelStatus200 then
              [.acceptMutation (p.uuid.getD "N/A")] else [])) := by
  obtain ⟨en, mno, mxo⟩ := cfg
  have hamt : p.amount.getD 0 = a := by rw [hpa]; rfl
  cases en with
  | false =>
    refine ⟨fun _ => ?_, fun h => ?_, fun h => ?_⟩
    · simp [notify_users_effects]
    · simp [decide_spec] at h
    · simp [decide_spec] at h
  | true =>
    rcases mno with _ | mn <;> rcases mxo with _ | mx
    · have hr : rangeAllows ⟨true, none, none⟩ a = true := rfl
      have hnu := notify_users_effects_autoAdmit p a pending _ o rfl hpa hr
      have hb := autoAdmit_branches (p.uuid.getD "N/A") pending o hall
      by_cases h5 : pending.length < 5
      · refine ⟨fun h => ?_, fun _ => ?_, fun h => ?_⟩
        · simp [decide_spec, h5] at h
        · rw [hnu]; exact hb.1 h5
        · simp [decide_spec, h5] at h
      · refine ⟨fun h => ?_, fun h => ?_, fun _ => ?_⟩
        · simp [decide_spec, h5] at h
        · simp [decide_spec, h5] at h
        · refine ⟨(hb.2 h5).1, fun v hv => ?_⟩
          refine ⟨((hb.2 h5).2 v hv).1, ?_⟩
          rw [hnu]
          exact ((hb.2 h5).2 v hv).2
    · have hr : rangeAllows ⟨true, none, some mx⟩ a = true := rfl
      have hnu := notify_users_effects_autoAdmit p a pending _ o rfl hpa hr
      have hb := autoAdmit_branches (p.uuid.getD "N/A") pending o hall
      by_cases h5 : pending.length < 5
      · refine ⟨fun h => ?_, fun _ => ?_, fun h => ?_⟩
        · simp [decide_spec, h5] at h
        · rw [hnu]; exact hb.1 h5
        · simp [decide_spec, h5] at h
      · refine ⟨fun h => ?_, fun h => ?_, fun _ => ?_⟩
        · simp [decide_spec, h5] at h
        · simp [decide_spec, h5] at h
        · refine ⟨(hb.2 h5).1, fun v hv => ?_⟩
          refine ⟨((hb.2 h5).2 v hv).1, ?_⟩
          rw [hnu]
          exact ((hb.2 h5).2 v hv).2
    · have hr : rangeAllows ⟨true, some mn, none⟩ a = true := rfl
      have hnu := notify_users_effects_autoAdmit p a pending _ o rfl hpa hr
      have hb := autoAdmit_branches (p.uuid.getD "N/A") pending o hall
      by_cases h5 : pending.length < 5
      · refine ⟨fun h => ?_, fun _ => ?_, fun h => ?_⟩
        · simp [decide_spec, h5] at h
        · rw [hnu]; exact hb.1 h5
        · simp [decide_spec, h5] at h
      · refine ⟨fun h => ?_, fun h => ?_, fun _ => ?_⟩
        · simp [decide_spec, h5] at h
        · simp [decide_spec, h5] at h
        · refine ⟨(hb.2 h5).1, fun v hv => ?_⟩
          refine ⟨((hb.2 h5).2 v hv).1, ?_⟩
          rw [hnu]
          exact ((hb.2 h5).2 v hv).2
    · by_cases hin : mn ≤ a ∧ a ≤ mx
      · have hout : ¬ (a < mn ∨ mx < a) := by
          push_neg
          exact hin
        have hr : rangeAllows ⟨true, some mn, some mx⟩ a = true := by
          simp [rangeAllows, hin]
        have hnu := notify_users_effects_autoAdmit p a pending _ o rfl hpa hr
        have hb := autoAdmit_branches (p.uuid.getD "N/A") pending o hall
        by_cases h5 : pending.length < 5
        · refine ⟨fun h => ?_, fun _ => ?_, fun h => ?_⟩
          · simp [decide_spec, h5, hout] at h
          · rw [hnu]; exact hb.1 h5
          · simp [decide_spec, h5, hout] at h
        · refine ⟨fun h => ?_, fun h => ?_, fun _ => ?_⟩
          · simp [decide_spec, h5, hout] at h
          · simp [decide_spec, h5, hout] at h
          · refine ⟨(hb.2 h5).1, fun v hv => ?_⟩
            refine ⟨((hb.2 h5).2 v hv).1, ?_⟩
            rw [hnu]
            exact ((hb.2 h5).2 v hv).2
      · have hout : a < mn ∨ mx < a := by
          rcases not_and_or.mp hin with h | h
          · exact Or.inl (not_le.mp h)
          · exact Or.inr (not_le.mp h)
        refine ⟨fun _ => ?_, fun h => ?_, fun h => ?_⟩
        · have : ¬ (mn ≤ p.amount.getD 0 ∧ p.amount.getD 0 ≤ mx) := by
            rw [hamt]; exact hin
          simp [notify_users_effects, handle_auto_mode_effects, this]
        · simp [decide_spec, hout] at h
        · simp [decide_spec, hout] at h

/-- Witness for C1: with auto mode enabled on the range [5000, 10000], an
in-range payout of 7000 and one pending item, the spec rules say
AutoAccept and the code issues exactly the accept mutation. -/
theorem admission_engine_follows_rules_witness :
    notify_users_effects ⟨some "W1", some 7000, none, "", ""⟩
        [⟨some "WB", some 100, none, "", ""⟩]
        ⟨true, some 5000, some 10000⟩ ⟨true, true⟩ =
      [.acceptMutation
        ((⟨some "W1", some 7000, none, "", ""⟩ : Payout).uuid.getD "N/A")] :=
  (admission_engine_follows_rules ⟨some "W1", some 7000, none, "", ""⟩ 7000
    [⟨some "WB", some 100, none, "", ""⟩] ⟨true, some 5000, some 10000⟩
    ⟨true, true⟩ rfl (by decide)).2.1 (by decide)

/-- C4: in the automatic evict-then-accept path (auto mode enabled, the
range check passed, at least 5 pending), the accept mutation for the new
payout appears among the effects exactly when the cancel call returned
HTTP 200, and a failed cancel leaves no accept mutation at all. -/
theorem evict_accepts_iff_cancel_success (p : Payout) (a : Rat)
    (pending : List Payout) (cfg : AutoMode) (o : AutoOracle)
    (hen : cfg.enabled = true) (hpa : p.amount = some a)
    (hr : rangeAllows cfg a = true) (h5 : 5 ≤ pending.length)
    (hall : ∀ q ∈ pending, q.amount.isSome = true) :
    ((Effect.acceptMutation (p.uuid.getD "N/A") ∈
        notify_users_effects p pending cfg o) ↔ o.cancelStatus200 = true) ∧
    (o.cancelStatus200 = false →
      ∀ u, Effect.acceptMutation u ∉ notify_users_effects p pending cfg o) := by
  have h5' : ¬ pending.length < 5 := not_lt.mpr h5
  have hnu := notify_users_effects_autoAdmit p a pending cfg o hen hpa hr
  have hb := (autoAdmit_branches (p.uuid.getD "N/A") pending o hall).2 h5'
  obtain ⟨v, hv⟩ := Option.isSome_iff_exists.mp hb.1
  have heff := (hb.2 v hv).2
  rw [hnu, heff]
  cases hc : o.cancelStatus200 with
  | false =>
    simp only [hc, if_neg, Bool.false_eq_true, not_false_iff]
    refine ⟨?_, fun _ u hu => ?_⟩
    · simp
    · rcases List.mem_singleton.mp hu with h
      cases h
  | true =>
    simp only [hc, if_pos]
    refine ⟨?_, fun h => ?_⟩
    · simp
    · cases h

/-- Witness for C4: with 5 pending items and a cancel call that fails, no
accept mutation is issued for the new payout. -/
theorem evict_accepts_iff_cancel_success_witness :
    ((Effect.acceptMutation
        ((⟨some "W4", some 900, none, "", ""⟩ : Payout).uuid.getD "N/A") ∈
      notify_users_effects ⟨some "W4", some 900, none, "", ""⟩
        [⟨some "Q1", some 10, none, "", ""⟩,
         ⟨some "Q2", some 20, none, "", ""⟩,
         ⟨some "Q3", some 30, none, "", ""⟩,
         ⟨some "Q4", some 40, none, "", ""⟩,
         ⟨some "Q5", some 50, none, "", ""⟩]
        ⟨true, none, none⟩ ⟨false, true⟩) ↔
      (⟨false, true⟩ : AutoOracle).cancelStatus200 = true) :=
  (evict_accepts_iff_cancel_success ⟨some "W4", some 900, none, "", ""⟩ 900
    [⟨some "Q1", some 10, none, "", ""⟩,
     ⟨some "Q2", some 20, none, "", ""⟩,
     ⟨some "Q3", some 30, none, "", ""⟩,
     ⟨some "Q4", some 40, none, "", ""⟩,
     ⟨some "Q5", some 50, none, "", ""⟩]
    ⟨true, none, none⟩ ⟨false, true⟩ rfl rfl rfl (by decide) (by decide)).1

/-- C8: an already-processed identifier is never returned by the intake
filter regardless of amount or recency, and a payout with a missing or
empty identifier is never returned either. -/
theorem dedup_and_uuid_guard (allPayouts pending : List Payout)
    (processed : List String) (now : Int) (p : Payout) :
    (∀ u, p.uuid = some u → u ∈ processed →
      p ∉ selectNewHighValue allPayouts pending processed now) ∧
    (p.uuid = none →
      p ∉ selectNewHighValue allPayouts pending processed now) ∧
    (p.uuid = some "" →
      p ∉ selectNewHighValue allPayouts pending processed now) := by
  refine ⟨fun u hu hproc hmem => ?_, fun hu hmem => ?_, fun hu hmem => ?_⟩
  · have hq := (mem_selectNewHighValue.mp hmem).2
    rw [qualifiesB_false_of_processed hu hproc] at hq
    cases hq
  · have hq := (mem_selectNewHighValue.mp hmem).2
    obtain ⟨u, hu2, -⟩ := qualifiesB_true_elim hq
    rw [hu] at hu2
    cases hu2
  · have hq := (mem_selectNewHighValue.mp hmem).2
    obtain ⟨u, hu2, hne, -⟩ := qualifiesB_true_elim hq
    rw [hu] at hu2
    exact hne (Option.some.inj hu2).symm

/-- Witness for C8: a recent, amount-exceeding payout whose identifier is
already in the ledger is not selected. -/
theorem dedup_and_uuid_guard_witness :
    (⟨some "D1", some 999, some ⟨950, none⟩, "", ""⟩ : Payout) ∉
      selectNewHighValue [⟨some "D1", some 999, some ⟨950, none⟩, "", ""⟩]
        [⟨some "DB", some 1, none, "", ""⟩] ["D1"] 1000 :=
  (dedup_and_uuid_guard [⟨some "D1", some 999, some ⟨950, none⟩, "", ""⟩]
    [⟨some "DB", some 1, none, "", ""⟩] ["D1"] 1000
    ⟨some "D1", some 999, some ⟨950, none⟩, "", ""⟩).1 "D1" rfl (by decide)

/-- C7: the recency boundary is inclusive.  For an otherwise qualifying
payout, a creation time normalising to exactly now minus RECENT_MINUTES
minutes is selected, while one normalising strictly earlier is never
selected; the normalisation treats a timestamp without timezone as UTC and
subtracts the offset of a timezone-aware one. -/
theorem recency_boundary_inclusive (allPayouts pending : List Payout)
    (processed : List String) (now : Int) (p : Payout) (u : String)
    (a : Rat) (t : ParsedTime)
    (hmem : p ∈ allPayouts) (hu : p.uuid = some u) (hne : u ≠ "")
    (hproc : u ∉ processed) (ha : p.amount = some a)
    (hgt : ∃ b ∈ comparableAmounts pending, b < a)
    (ht : p.creation_time = some t) :
    (toUTC t = now - RECENT_MINUTES * 60 →
      p ∈ selectNewHighValue allPayouts pending processed now) ∧
    (toUTC t < now - RECENT_MINUTES * 60 →
      p ∉ selectNewHighValue allPayouts pending processed now) ∧
    (∀ n : Int, toUTC ⟨n, none⟩ = n) ∧
    (∀ n off : Int, toUTC ⟨n, some off⟩ = n - off) := by
  refine ⟨fun heq => ?_, fun hlt hmem2 => ?_, fun n => ?_, fun n off => ?_⟩
  · exact mem_selectNewHighValue.mpr
      ⟨hmem, qualifiesB_true_intro hu hne hproc ha hgt ht (le_of_eq heq.symm)⟩
  · have hq := (mem_selectNewHighValue.mp hmem2).2
    obtain ⟨u2, -, -, -, a2, -, -, t2, ht2, hrec⟩ := qualifiesB_true_elim hq
    rw [ht] at ht2
    rw [Option.some.inj ht2] at hlt
    exact absurd hrec (not_le.mpr hlt)
  · simp [toUTC]
  · simp [toUTC]

/-- Witness for C7: with now = 1000 and the 5 minute window, a payout
created at the naive (UTC-assumed) instant 700 = 1000 - 300 is selected. -/
theorem recency_boundary_inclusive_witness :
    (⟨some "R1", some 200, some ⟨700, none⟩, "", ""⟩ : Payout) ∈
      selectNewHighValue [⟨some "R1", some 200, some ⟨700, none⟩, "", ""⟩]
        [⟨some "RB", some 100, none, "", ""⟩] [] 1000 :=
  (recency_boundary_inclusive
    [⟨some "R1", some 200, some ⟨700, none⟩, "", ""⟩]
    [⟨some "RB", some 100, none, "", ""⟩] [] 1000
    ⟨some "R1", some 200, some ⟨700, none⟩, "", ""⟩ "R1" 200 ⟨700, none⟩
    (by decide) rfl (by decide) (by decide) rfl (by decide) rfl).1
    (by decide)

/-- C2: the intake filter never selects a payout whose parsed amount is at
most every comparable pending amount; a payout that qualifies (non-empty
unprocessed identifier, amount above some comparable pending amount,
within the recency window) is selected in that cycle and, over the whole
run of poll cycles threading the ledger, is counted exactly once; and no
identifier is ever counted more than once over a run. -/
theorem intake_threshold_and_selected_once :
    (∀ (allPayouts pending : List Payout) (processed : List String)
        (now : Int) (p : Payout) (a : Rat), p.amount = some a →
        (∀ b ∈ comparableAmounts pending, a ≤ b) →
        p ∉ selectNewHighValue allPayouts pending processed now) ∧
    (∀ (processed : List String) (s : Snapshot) (rest : List Snapshot)
        (p : Payout) (u : String),
        p ∈ s.all → p.uuid = some u →
        qualifiesB processed (comparableAmounts s.pending) s.now p = true →
        (s.all.filterMap Payout.uuid).Nodup →
        p ∈ selectNewHighValue s.all s.pending processed s.now ∧
        runCountU u (pollRun processed (s :: rest)) = 1) ∧
    (∀ (processed : List String) (snaps : List Snapshot) (u : String),
        (∀ s ∈ snaps, (s.all.filterMap Payout.uuid).Nodup) →
        runCountU u (pollRun processed snaps) ≤ 1) := by
  refine ⟨?_, ?_, ?_⟩
  · intro allPayouts pending processed now p a ha hle hmem
    have hq := (mem_selectNewHighValue.mp hmem).2
    obtain ⟨u2, -, -, -, a2, ha2, ⟨b, hb1, hb2⟩, -⟩ := qualifiesB_true_elim hq
    rw [ha] at ha2
    rw [← Option.some.inj ha2] at hb2
    exact absurd (hle b hb1) (not_le.mpr hb2)
  · intro processed s rest p u hmem hu hqual hnd
    have hsel : p ∈ selectNewHighValue s.all s.pending processed s.now :=
      mem_selectNewHighValue.mpr ⟨hmem, hqual⟩
    refine ⟨hsel, ?_⟩
    rw [pollRun_cons, runCountU_cons]
    have hpos : 0 < (selectNewHighValue s.all s.pending processed
        s.now).countP (fun q => decide (q.uuid = some u)) :=
      List.countP_pos_iff.mpr ⟨p, hsel, decide_eq_true hu⟩
    have hone : (selectNewHighValue s.all s.pending processed s.now).countP
        (fun q => decide (q.uuid = some u)) ≤ 1 :=
      le_trans (countP_select_le _ _ _ _ _) (countP_uuid_le_one hnd)
    have hrest : runCountU u
        (pollRun (pollLedger processed
          (selectNewHighValue s.all s.pending processed s.now)) rest) = 0 :=
      runCountU_zero_of_processed rest _
        (mem_pollLedger_of_selected hsel hu processed)
    omega
  · intro processed snaps u hnd
    exact runCountU_le_one snaps processed hnd

/-- Witness for C2: a fresh payout of amount 200 against a pending amount
of 100 is selected, and over a one-cycle run it is counted exactly once. -/
theorem intake_threshold_and_selected_once_witness :
    (⟨some "X1", some 200, some ⟨900, none⟩, "", ""⟩ : Payout) ∈
      selectNewHighValue [⟨some "X1", some 200, some ⟨900, none⟩, "", ""⟩]
        [⟨some "XB", some 100, none, "", ""⟩] [] 1000 ∧
    runCountU "X1"
      (pollRun []
        [⟨[⟨some "X1", some 200, some ⟨900, none⟩, "", ""⟩],
          [⟨some "XB", some 100, none, "", ""⟩], 1000⟩]) = 1 :=
  intake_threshold_and_selected_once.2.1 []
    ⟨[⟨some "X1", some 200, some ⟨900, none⟩, "", ""⟩],
      [⟨some "XB", some 100, none, "", ""⟩], 1000⟩ []
    ⟨some "X1", some 200, some ⟨900, none⟩, "", ""⟩ "X1"
    (by decide) rfl (by decide) (by decide)

/-- A constant handling environment with empty refetched pending list and
all-success backend responses. -/
def constEnv : Nat → HandleEnv := fun _ => ⟨[], ⟨true, true⟩⟩

/-- C5: the ledger produced by a poll cycle is the input ledger plus the
identifiers of every selected payout, independent of what the downstream
handling (notification delivery, accept or cancel mutations) did: the
update is the same under any oracle environment, every selected
identifier lands in it, and a payout carrying such an identifier is never
selected again by any later cycle that reads this ledger. -/
theorem ledger_updated_unconditionally (processed : List String)
    (s : Snapshot) (cfg : AutoMode) (envs envs2 : Nat → HandleEnv) :
    ((check_payouts_cycle processed s cfg envs).2 =
      pollLedger processed
        (selectNewHighValue s.all s.pending processed s.now)) ∧
    ((check_payouts_cycle processed s cfg envs).2 =
      (check_payouts_cycle processed s cfg envs2).2) ∧
    (∀ p u, p ∈ selectNewHighValue s.all s.pending processed s.now →
      p.uuid = some u →
      u ∈ (check_payouts_cycle processed s cfg envs).2 ∧
      ∀ (all2 pending2 : List Payout) (now2 : Int) (q : Payout),
        q.uuid = some u →
        q ∉ selectNewHighValue all2 pending2
          (check_payouts_cycle processed s cfg envs).2 now2) := by
  refine ⟨rfl, rfl, ?_⟩
  intro p u hp hu
  have hmem : u ∈ (check_payouts_cycle processed s cfg envs).2 :=
    mem_pollLedger_of_selected hp hu processed
  refine ⟨hmem, ?_⟩
  intro all2 pending2 now2 q hq hqmem
  have hqf := (mem_selectNewHighValue.mp hqmem).2
  rw [qualifiesB_false_of_processed hq hmem] at hqf
  cases hqf

/-- Witness for C5: the selected payout identifier X5 is in the ledger the
cycle writes back, for a one-payout snapshot handled with auto mode off. -/
theorem ledger_updated_unconditionally_witness :
    "X5" ∈ (check_payouts_cycle []
      ⟨[⟨some "X5", some 300, some ⟨800, none⟩, "", ""⟩],
        [⟨some "XC", some 100, none, "", ""⟩], 1000⟩
      ⟨false, none, none⟩ constEnv).2 :=
  ((ledger_updated_unconditionally []
    ⟨[⟨some "X5", some 300, some ⟨800, none⟩, "", ""⟩],
      [⟨some "XC", some 100, none, "", ""⟩], 1000⟩
    ⟨false, none, none⟩ constEnv constEnv).2.2
    ⟨some "X5", some 300, some ⟨800, none⟩, "", ""⟩ "X5"
    (by decide) rfl).1

/-- C9: a cancel click resolves the operator's index against the freshly
fetched pending list; an index at or beyond that list's length produces
the visible index error with no mutation at all, while a valid index
issues the cancel mutation for the item at that position of the fresh
list. -/
theorem stale_index_surfaced (idx : Int) (newUuid : Option String)
    (fresh refreshed : List Payout) (c200 : Bool) :
    ((fresh.length : Int) ≤ idx →
      handle_cancel_callback idx newUuid fresh refreshed c200 =
        (.staleIndexError, [])) ∧
    (0 ≤ idx → idx < (fresh.length : Int) →
      ∀ v, fresh[idx.toNat]? = some v →
        (handle_cancel_callback idx newUuid fresh refreshed c200).2.head? =
          some (.cancelMutation v.uuid)) := by
  constructor
  · intro h
    unfold handle_cancel_callback
    rw [if_pos h]
  · intro h0 hlt v hv
    have hp : pyGet fresh idx = some v := by
      rw [pyGet_nonneg h0]; exact hv
    exact (handle_cancel_effects_of_some idx newUuid fresh refreshed c200
      hlt hp).1

/-- Witness for C9: with a fresh pending list of 2 items, the stale index
3 from an outdated rendering is rejected with the visible error and no
mutation. -/
theorem stale_index_surfaced_witness :
    handle_cancel_callback 3 (some "S9")
        [⟨some "S1", some 10, none, "", ""⟩,
         ⟨some "S2", some 20, none, "", ""⟩] [] true =
      (.staleIndexError, []) :=
  (stale_index_surfaced 3 (some "S9")
    [⟨some "S1", some 10, none, "", ""⟩,
     ⟨some "S2", some 20, none, "", ""⟩] [] true).1 (by decide)

/-- C10: a negative index whose absolute value is at most the fresh
pending count is not rejected by the bounds check (which only compares
against the upper end) and resolves via Python negative indexing to the
item counted from the end of the fresh list, for which the cancel
mutation is issued. -/
theorem negative_index_resolves_from_end (idx : Int)
    (newUuid : Option String) (fresh refreshed : List Payout) (c200 : Bool)
    (hneg : idx < 0) (habs : 0 ≤ idx + (fresh.length : Int)) :
    (handle_cancel_callback idx newUuid fresh refreshed c200).1 ≠
      .staleIndexError ∧
    (handle_cancel_callback idx newUuid fresh refreshed c200).2 ≠ [] ∧
    ∀ v, fresh[(idx + (fresh.length : Int)).toNat]? = some v →
      (handle_cancel_callback idx newUuid fresh refreshed c200).2.head? =
        some (.cancelMutation v.uuid) := by
  have hlt : idx < (fresh.length : Int) :=
    lt_of_lt_of_le hneg (Int.natCast_nonneg _)
  have hlen : (idx + (fresh.length : Int)).toNat < fresh.length := by omega
  have hsome : fresh[(idx + (fresh.length : Int)).toNat]? =
      some (fresh[(idx + (fresh.length : Int)).toNat]) :=
    List.getElem?_eq_getElem hlen
  have hp : pyGet fresh idx =
      some (fresh[(idx + (fresh.length : Int)).toNat]) := by
    rw [pyGet_neg hneg habs]; exact hsome
  have h := handle_cancel_effects_of_some idx newUuid fresh refreshed c200
    hlt hp
  refine ⟨h.2, ?_, ?_⟩
  · intro he
    rw [he] at h
    cases h.1
  · intro v hv
    rw [hsome] at hv
    rw [← Option.some.inj hv]
    exact h.1

/-- Witness for C10: index -1 on a fresh list of 2 items cancels the last
item rather than being rejected. -/
theorem negative_index_resolves_from_end_witness :
    (handle_cancel_callback (-1) (some "N10")
        [⟨some "V1", some 10, none, "", ""⟩,
         ⟨some "V2", some 20, none, "", ""⟩] [] true).2.head? =
      some (.cancelMutation
        ((⟨some "V2", some 20, none, "", ""⟩ : Payout).uuid)) :=
  (negative_index_resolves_from_end (-1) (some "N10")
    [⟨some "V1", some 10, none, "", ""⟩,
     ⟨some "V2", some 20, none, "", ""⟩] [] true (by decide)
    (by decide)).2.2 ⟨some "V2", some 20, none, "", ""⟩ (by decide)

/-- C6: one step of the manual MustEvict flow with a successful cancel:
while the refetched count is still at least 5, the handler re-renders the
eviction list from the refetched items with the same embedded identifier;
once the refetched count is below 5, it issues the accept mutation for
the embedded identifier and terminates.  Consequently, starting from a
fresh count of 6 with the refetched list being the fresh list minus the
cancelled item (no concurrent mutation), the flow reaches acceptance
after exactly 2 operator clicks. -/
theorem must_evict_loop_terminates :
    (∀ (idx : Int) (u : String) (fresh refreshed : List Payout)
        (v : Payout),
      0 ≤ idx → idx < (fresh.length : Int) → pyGet fresh idx = some v →
      (5 ≤ refreshed.length →
        handle_cancel_callback idx (some u) fresh refreshed true =
          (.mustEvictAgain u refreshed, [.cancelMutation v.uuid])) ∧
      (refreshed.length < 5 → u ≠ "" → u ≠ "N/A" →
        handle_cancel_callback idx (some u) fresh refreshed true =
          (.acceptedNew u, [.cancelMutation v.uuid, .acceptMutation u]))) ∧
    (∀ (u : String) (fresh : List Payout) (i1 i2 : Int),
      fresh.length = 6 → 0 ≤ i1 → i1 < 6 → 0 ≤ i2 → i2 < 5 →
      u ≠ "" → u ≠ "N/A" →
      (handle_cancel_callback i1 (some u) fresh
          (fresh.eraseIdx i1.toNat) true).1 =
        .mustEvictAgain u (fresh.eraseIdx i1.toNat) ∧
      ∀ v2, pyGet (fresh.eraseIdx i1.toNat) i2 = some v2 →
        handle_cancel_callback i2 (some u) (fresh.eraseIdx i1.toNat)
            ((fresh.eraseIdx i1.toNat).eraseIdx i2.toNat) true =
          (.acceptedNew u, [.cancelMutation v2.uuid, .acceptMutation u])) := by
  have step : ∀ (idx : Int) (u : String) (fresh refreshed : List Payout)
      (v : Payout),
      0 ≤ idx → idx < (fresh.length : Int) → pyGet fresh idx = some v →
      (5 ≤ refreshed.length →
        handle_cancel_callback idx (some u) fresh refreshed true =
          (.mustEvictAgain u refreshed, [.cancelMutation v.uuid])) ∧
      (refreshed.length < 5 → u ≠ "" → u ≠ "N/A" →
        handle_cancel_callback idx (some u) fresh refreshed true =
          (.acceptedNew u, [.cancelMutation v.uuid, .acceptMutation u])) := by
    intro idx u fresh refreshed v h0 hlt hv
    constructor
    · intro h5
      unfold handle_cancel_callback
      rw [if_neg (not_le.mpr hlt), hv]
      simp [h5]
    · intro h5 hu1 hu2
      unfold handle_cancel_callback
      rw [if_neg (not_le.mpr hlt), hv]
      simp [not_le.mpr h5, hu1, hu2]
  refine ⟨step, ?_⟩
  intro u fresh i1 i2 h6 h01 hi1 h02 hi2 hu1 hu2
  have hlt1 : i1 < (fresh.length : Int) := by rw [h6]; exact_mod_cast hi1
  have hlen1 : i1.toNat < fresh.length := by omega
  have hv1 : pyGet fresh i1 = some (fresh[i1.toNat]) := by
    rw [pyGet_nonneg h01]
    exact List.getElem?_eq_getElem hlen1
  have hlen5 : (fresh.eraseIdx i1.toNat).length = 5 := by
    rw [List.length_eraseIdx_of_lt hlen1, h6]
  constructor
  · have h := (step i1 u fresh (fresh.eraseIdx i1.toNat) (fresh[i1.toNat])
      h01 hlt1 hv1).1 (by rw [hlen5])
    rw [h]
  · intro v2 hv2
    have hlt2 : i2 < ((fresh.eraseIdx i1.toNat).length : Int) := by
      rw [hlen5]; exact_mod_cast hi2
    have hlen2 : i2.toNat < (fresh.eraseIdx i1.toNat).length := by omega
    have hlen4 : ((fresh.eraseIdx i1.toNat).eraseIdx i2.toNat).length = 4 := by
      rw [List.length_eraseIdx_of_lt hlen2, hlen5]
    exact (step i2 u (fresh.eraseIdx i1.toNat)
      ((fresh.eraseIdx i1.toNat).eraseIdx i2.toNat) v2 h02 hlt2 hv2).2
      (by rw [hlen4]; omega) hu1 hu2

/-- The six pending items of the worked MustEvict termination example. -/
def mustEvictExample : List Payout :=
  [⟨some "M1", some 10, none, "", ""⟩,
   ⟨some "M2", some 20, none, "", ""⟩,
   ⟨some "M3", some 30, none, "", ""⟩,
   ⟨some "M4", some 40, none, "", ""⟩,
   ⟨some "M5", some 50, none, "", ""⟩,
   ⟨some "M6", some 60, none, "", ""⟩]

/-- Witness for C6: from 6 pending items, the first click re-renders
MustEvict with the same embedded identifier and the second click accepts
the embedded new payout. -/
theorem must_evict_loop_terminates_witness :
    (handle_cancel_callback 0 (some "NEW") mustEvictExample
        (mustEvictExample.eraseIdx 0) true).1 =
      .mustEvictAgain "NEW" (mustEvictExample.eraseIdx 0) ∧
    handle_cancel_callback 0 (some "NEW") (mustEvictExample.eraseIdx 0)
        ((mustEvictExample.eraseIdx 0).eraseIdx 0) true =
      (.acceptedNew "NEW",
       [.cancelMutation
          ((⟨some "M2", some 20, none, "", ""⟩ : Payout).uuid),
        .acceptMutation "NEW"]) := by
  have h := must_evict_loop_terminates.2 "NEW" mustEvictExample 0 0
    (by decide) (by decide) (by decide) (by decide) (by decide)
    (by decide) (by decide)
  exact ⟨h.1, h.2 ⟨some "M2", some 20, none, "", ""⟩ (by decide)⟩

end PayoutBot
